/-
Verification of the ParallelBehavior instance manager
(`UParallelBehaviorManagerComponent`, Source/ParallelBehavior).

Shallow embedding: the component's registry state is modelled explicitly.
Engine objects (behavior-tree executor components and blackboard components)
are modelled as natural-number object ids allocated from a fresh counter;
the set of currently live objects is a list `alive`.  A `TWeakObjectPtr`
is an `Option Nat` (`none` = null pointer / never assigned); `IsValid` /
`Get` check membership in `alive`, so a handle whose referent was destroyed
externally reads as absent.  `UE_LOG` diagnostics that the manager emits on
its mutating paths are recorded as a list of log events.  `check()` failures
(process aborts) are modelled by `Except Unit`: `.error ()` means the
operation aborted the process (an out-of-bounds `TArray` access trips
`check`).  External collaborator calls that only affect the executor's or
blackboard's internal state are recorded observationally: `stopped` collects
object ids on which a graceful `StopTree` was invoked, `restarted` those on
which `RestartTree` was invoked, `selfKeySet` the blackboards whose "self"
key was written.
-/
import Mathlib

namespace ParallelBehavior

/-- Blackboard schema asset (`UBlackboardData`).  The two fields record the
outcome of the external collaborator calls the manager makes against it:
whether `InitializeBlackboard` succeeds and whether the schema has a
well-known "self" key (`GetKeyID(FBlackboard::KeySelf) != InvalidKey`). -/
structure UBlackboardData where
  initSucceeds : Bool
  hasSelfKey : Bool
deriving Repr, DecidableEq

/-- Behavior tree asset (`UBehaviorTree`): carries an optional blackboard
schema reference (`BlackboardAsset`). -/
structure UBehaviorTree where
  BlackboardAsset : Option UBlackboardData
deriving Repr, DecidableEq

/-- `FParallelBehaviorSetup`: configuration for one parallel tree instance.
Identifiers (`FName`) are modelled as `Nat`; the soft object pointer
`BTAsset` is `none` when null/unresolved. -/
structure FParallelBehaviorSetup where
  Id : Nat
  BTAsset : Option UBehaviorTree
deriving Repr, DecidableEq

/-- `FParallelBehaviorRuntime`: one registry record, pairing an id with weak
handles to the executor component and the blackboard component (`none` =
null weak pointer). -/
structure FParallelBehaviorRuntime where
  Id : Nat
  TreeComponent : Option Nat
  BlackboardComponent : Option Nat
deriving Repr, DecidableEq

/-- Diagnostics the manager emits on its mutating paths (`UE_LOG`). -/
inductive LogEvent where
  | warnNullTree
  | warnNullBlackboardAsset
  | logTreeStarted
  | logTreeRemoved
deriving Repr, DecidableEq

/-- The manager component's state: the configured default setups, the
registry (`RunningTrees`), plus the surrounding object system (live object
ids, fresh-allocation counter) and the observational records described in
the header comment. -/
structure ManagerState where
  ParallelBehaviorDefaults : List FParallelBehaviorSetup
  RunningTrees : List FParallelBehaviorRuntime
  alive : List Nat
  stopped : List Nat
  restarted : List Nat
  selfKeySet : List Nat
  nextObj : Nat
  log : List LogEvent
deriving Repr, DecidableEq

/-- A freshly constructed manager with the given default setup list:
empty registry, no objects allocated. -/
def initState (defaults : List FParallelBehaviorSetup) : ManagerState :=
  ⟨defaults, [], [], [], [], [], 0, []⟩

/-- `TWeakObjectPtr::Get()`: returns the referent when it is live, null
otherwise (a stale handle reads as absent). -/
def weakGet (alive : List Nat) (w : Option Nat) : Option Nat :=
  match w with
  | none => none
  | some o => if o ∈ alive then some o else none

/-- An external collaborator destroys object `o` without going through the
registry (the stale-handle scenario of the spec). -/
def externalDestroy (s : ManagerState) (o : Nat) : ManagerState :=
  { s with alive := s.alive.filter (fun x => x ≠ o) }

/-- `AddTree` (ParallelBehaviorManagerComponent.cpp lines 43-89).
Null tree asset: warn and return false.  Otherwise: if the tree's
blackboard asset is null, warn and leave the blackboard handle null; else
construct a fresh blackboard component (`NewObject`, modelled as always
succeeding), and when `InitializeBlackboard` succeeds and the schema has a
"self" key, set that key.  Then always construct and start a fresh
behavior-tree component and append the record to `RunningTrees`. -/
def AddTree (s : ManagerState) (InSetup : FParallelBehaviorSetup) :
    Bool × ManagerState :=
  match InSetup.BTAsset with
  | none => (false, { s with log := LogEvent.warnNullTree :: s.log })
  | some bt =>
    let bbStep : Option Nat × ManagerState :=
      match bt.BlackboardAsset with
      | none => (none, { s with log := LogEvent.warnNullBlackboardAsset :: s.log })
      | some bb =>
        let oid := s.nextObj
        let sA := { s with alive := oid :: s.alive, nextObj := s.nextObj + 1 }
        if bb.initSucceeds && bb.hasSelfKey then
          (some oid, { sA with selfKeySet := oid :: sA.selfKeySet })
        else
          (some oid, sA)
    let s1 := bbStep.2
    let tid := s1.nextObj
    let s2 := { s1 with alive := tid :: s1.alive, nextObj := s1.nextObj + 1 }
    (true, { s2 with
      RunningTrees :=
        s2.RunningTrees ++ [⟨InSetup.Id, some tid, bbStep.1⟩],
      log := LogEvent.logTreeStarted :: s2.log })

/-- The loop body of `GetTree` (lines 168-175): iterate `i` from `0` while
`i < ParallelBehaviorDefaults.Num()` (the fuel argument), reading
`RunningTrees[i]` — an out-of-bounds access aborts (`check`), modelled as
`.error ()`.  On the first id match, return `TreeComponent.Get()`. -/
def getTreeLoop (alive : List Nat) (running : List FParallelBehaviorRuntime)
    (id : Nat) : Nat → Nat → Except Unit (Option Nat)
  | 0, _ => Except.ok none
  | rem + 1, i =>
    match running[i]? with
    | none => Except.error ()
    | some rt =>
      if rt.Id == id then Except.ok (weakGet alive rt.TreeComponent)
      else getTreeLoop alive running id rem (i + 1)

/-- `GetTree` (lines 166-178).  NOTE the source's loop bound: it is
`ParallelBehaviorDefaults.Num()`, not `RunningTrees.Num()`. -/
def GetTree (s : ManagerState) (InId : Nat) : Except Unit (Option Nat) :=
  getTreeLoop s.alive s.RunningTrees InId s.ParallelBehaviorDefaults.length 0

/-- `StopTree` (lines 91-97): look the tree up; when a live executor is
returned, invoke its graceful stop. -/
def StopTree (s : ManagerState) (InId : Nat) : Except Unit ManagerState :=
  match GetTree s InId with
  | Except.error e => Except.error e
  | Except.ok none => Except.ok s
  | Except.ok (some t) => Except.ok { s with stopped := t :: s.stopped }

/-- `RestartTree` (lines 99-105): look the tree up; when a live executor is
returned, invoke its restart. -/
def RestartTree (s : ManagerState) (InId : Nat) : Except Unit ManagerState :=
  match GetTree s InId with
  | Except.error e => Except.error e
  | Except.ok none => Except.ok s
  | Except.ok (some t) => Except.ok { s with restarted := t :: s.restarted }

/-- The first if-block of the per-record teardown
(`if (rt.TreeComponent.IsValid()) { StopTree(Safe); DestroyComponent(); }`):
when the weak handle is valid, record the graceful stop and remove the
executor from the live set. -/
def stopDestroyTree (w : Option Nat) (alive stopped : List Nat) :
    List Nat × List Nat :=
  match w with
  | some t =>
    if t ∈ alive then (alive.filter (fun o => o ≠ t), t :: stopped)
    else (alive, stopped)
  | none => (alive, stopped)

/-- The second if-block of the per-record teardown
(`if (rt.BlackboardComponent.IsValid()) { DestroyComponent(); }`). -/
def destroyBB (w : Option Nat) (alive : List Nat) : List Nat :=
  match w with
  | some b => if b ∈ alive then alive.filter (fun o => o ≠ b) else alive
  | none => alive

/-- The per-record teardown shared by `RemoveTree` (lines 115-123) and
`RemoveAllTrees` (lines 143-151): if the tree handle is valid, stop the
executor gracefully and destroy it; then, if the blackboard handle is
valid, destroy it.  Returns the updated `(alive, stopped)`. -/
def destroyRt (rt : FParallelBehaviorRuntime) (alive stopped : List Nat) :
    List Nat × List Nat :=
  let p := stopDestroyTree rt.TreeComponent alive stopped
  (destroyBB rt.BlackboardComponent p.1, p.2)

/-- The loop of `RemoveTree` (lines 110-127): iterate `i` from
`RunningTrees.Num() - 1` down to `0` (the first argument is `i + 1`); on
each id match, tear the record's components down and overwrite
`foundIndex` with `i`. -/
def removeTreeLoop (id : Nat) (running : List FParallelBehaviorRuntime) :
    Nat → List Nat → List Nat → Option Nat →
      List Nat × List Nat × Option Nat
  | 0, alive, stopped, found => (alive, stopped, found)
  | i + 1, alive, stopped, found =>
    match running[i]? with
    | none => removeTreeLoop id running i alive stopped found
    | some rt =>
      if rt.Id == id then
        let p := destroyRt rt alive stopped
        removeTreeLoop id running i p.1 p.2 (some i)
      else removeTreeLoop id running i alive stopped found

/-- `RemoveTree` (lines 107-135): run the reverse scan; if a match was
found, remove the single record at the final `foundIndex` and log, and
return whether a match was found. -/
def RemoveTree (s : ManagerState) (Id : Nat) : Bool × ManagerState :=
  let r := removeTreeLoop Id s.RunningTrees s.RunningTrees.length
      s.alive s.stopped none
  match r.2.2 with
  | some i =>
    (true, { s with
      RunningTrees := s.RunningTrees.eraseIdx i,
      alive := r.1, stopped := r.2.1,
      log := LogEvent.logTreeRemoved :: s.log })
  | none => (false, { s with alive := r.1, stopped := r.2.1 })

/-- The loop of `RemoveAllTrees` (lines 139-153): tear down every record's
components, in reverse order. -/
def removeAllLoop (running : List FParallelBehaviorRuntime) :
    Nat → List Nat → List Nat → List Nat × List Nat
  | 0, alive, stopped => (alive, stopped)
  | i + 1, alive, stopped =>
    match running[i]? with
    | none => removeAllLoop running i alive stopped
    | some rt =>
      let p := destroyRt rt alive stopped
      removeAllLoop running i p.1 p.2

/-- `RemoveAllTrees` (lines 137-155): tear everything down, then clear the
registry unconditionally (`RunningTrees.Empty()`). -/
def RemoveAllTrees (s : ManagerState) : ManagerState :=
  let r := removeAllLoop s.RunningTrees s.RunningTrees.length
      s.alive s.stopped
  { s with RunningTrees := [], alive := r.1, stopped := r.2 }

/-- The loop of `RunDefaultTrees` (lines 16-23): `n` is captured before the
loop; iterate `i` ascending, calling `AddTree(ParallelBehaviorDefaults[i])`
on the current state. -/
def runDefaultTreesLoop : Nat → Nat → ManagerState → ManagerState
  | 0, _, s => s
  | rem + 1, i, s =>
    match s.ParallelBehaviorDefaults[i]? with
    | none => runDefaultTreesLoop rem (i + 1) s
    | some setup => runDefaultTreesLoop rem (i + 1) (AddTree s setup).2

/-- `RunDefaultTrees` (lines 16-23). -/
def RunDefaultTrees (s : ManagerState) : ManagerState :=
  runDefaultTreesLoop s.ParallelBehaviorDefaults.length 0 s

/-- `BeginPlay` (lines 27-35): after `Super::BeginPlay()`, bootstrap the
default trees exactly when `GetOwner()->HasAuthority()` holds; the
authority predicate is an input from the surrounding engine. -/
def BeginPlay (s : ManagerState) (hasAuthority : Bool) : ManagerState :=
  if hasAuthority then RunDefaultTrees s else s

/-- `EndPlay` (lines 37-41): unconditionally `RemoveAllTrees()` (before
`Super::EndPlay`); the end-play reason is ignored and no authority check
is consulted. -/
def EndPlay (s : ManagerState) (_EndPlayReason : Nat) : ManagerState :=
  RemoveAllTrees s

/-- An externally driven mutating call on the registry: `AddTree` or
`RemoveTree` (the two operations that change the record collection). -/
inductive ManagerOp where
  | addOp (setup : FParallelBehaviorSetup)
  | removeOp (id : Nat)
deriving Repr, DecidableEq

/-- Apply one registry-mutating call. -/
def applyOp (s : ManagerState) : ManagerOp → ManagerState
  | ManagerOp.addOp setup => (AddTree s setup).2
  | ManagerOp.removeOp id => (RemoveTree s id).2

/-- Apply a sequence of registry-mutating calls, left to right. -/
def applyOps (s : ManagerState) : List ManagerOp → ManagerState
  | [] => s
  | op :: rest => applyOps (applyOp s op) rest

/-- Apply a sequence of `AddTree` calls, left to right. -/
def addAll (s : ManagerState) : List FParallelBehaviorSetup → ManagerState
  | [] => s
  | setup :: rest => addAll (AddTree s setup).2 rest

/-- The object ids a registry record references (its non-null weak
handles). -/
def rtRefs (rt : FParallelBehaviorRuntime) : List Nat :=
  rt.TreeComponent.toList ++ rt.BlackboardComponent.toList

/-! ### Lemmas about the per-record teardown -/

theorem stopDestroyTree_alive_subset (w : Option Nat) (a st : List Nat)
    (x : Nat) (h : x ∈ (stopDestroyTree w a st).1) : x ∈ a := by
  cases w with
  | none => exact h
  | some t =>
    by_cases ht : t ∈ a <;> simp only [stopDestroyTree, ht, if_pos, if_neg,
      if_true, if_false] at h
    · exact List.mem_of_mem_filter h
    · exact h

theorem stopDestroyTree_stop_sup (w : Option Nat) (a st : List Nat)
    (x : Nat) (h : x ∈ st) : x ∈ (stopDestroyTree w a st).2 := by
  cases w with
  | none => exact h
  | some t =>
    by_cases ht : t ∈ a <;> simp only [stopDestroyTree, ht, if_true,
      if_false]
    · exact List.mem_cons_of_mem _ h
    · exact h

theorem stopDestroyTree_stop_src (w : Option Nat) (a st : List Nat)
    (x : Nat) (h : x ∈ (stopDestroyTree w a st).2) :
    x ∈ st ∨ (w = some x ∧ x ∈ a) := by
  cases w with
  | none => exact Or.inl h
  | some t =>
    by_cases ht : t ∈ a <;> simp only [stopDestroyTree, ht, if_true,
      if_false] at h
    · rcases List.mem_cons.mp h with h1 | h1
      · exact Or.inr ⟨by rw [h1], h1 ▸ ht⟩
      · exact Or.inl h1
    · exact Or.inl h

theorem stopDestroyTree_dead (t : Nat) (a st : List Nat) :
    t ∉ (stopDestroyTree (some t) a st).1 := by
  by_cases ht : t ∈ a <;> simp only [stopDestroyTree, ht, if_true, if_false]
  · intro h
    have := (List.mem_filter.mp h).2
    simp at this
  · exact not_false

theorem stopDestroyTree_stop_mem (t : Nat) (a st : List Nat) (ht : t ∈ a) :
    t ∈ (stopDestroyTree (some t) a st).2 := by
  simp only [stopDestroyTree, ht, if_true]
  exact List.mem_cons_self _ _

theorem stopDestroyTree_preserve (w : Option Nat) (a st : List Nat)
    (x : Nat) (hx : x ∈ a) (hw : w ≠ some x) :
    x ∈ (stopDestroyTree w a st).1 := by
  cases w with
  | none => exact hx
  | some t =>
    by_cases ht : t ∈ a <;> simp only [stopDestroyTree, ht, if_true,
      if_false]
    · refine List.mem_filter.mpr ⟨hx, ?_⟩
      simp only [decide_eq_true_eq]
      intro hxt
      exact hw (by rw [hxt])
    · exact hx

theorem destroyBB_subset (w : Option Nat) (a : List Nat) (x : Nat)
    (h : x ∈ destroyBB w a) : x ∈ a := by
  cases w with
  | none => exact h
  | some b =>
    by_cases hb : b ∈ a <;> simp only [destroyBB, hb, if_true, if_false] at h
    · exact List.mem_of_mem_filter h
    · exact h

theorem destroyBB_dead (b : Nat) (a : List Nat) :
    b ∉ destroyBB (some b) a := by
  by_cases hb : b ∈ a <;> simp only [destroyBB, hb, if_true, if_false]
  · intro h
    have := (List.mem_filter.mp h).2
    simp at this
  · exact not_false

theorem destroyBB_preserve (w : Option Nat) (a : List Nat) (x : Nat)
    (hx : x ∈ a) (hw : w ≠ some x) : x ∈ destroyBB w a := by
  cases w with
  | none => exact hx
  | some b =>
    by_cases hb : b ∈ a <;> simp only [destroyBB, hb, if_true, if_false]
    · refine List.mem_filter.mpr ⟨hx, ?_⟩
      simp only [decide_eq_true_eq]
      intro hxb
      exact hw (by rw [hxb])
    · exact hx

theorem destroyRt_alive_subset (rt : FParallelBehaviorRuntime)
    (a st : List Nat) (x : Nat) (h : x ∈ (destroyRt rt a st).1) : x ∈ a :=
  stopDestroyTree_alive_subset _ _ _ _ (destroyBB_subset _ _ _ h)

theorem destroyRt_stop_sup (rt : FParallelBehaviorRuntime)
    (a st : List Nat) (x : Nat) (h : x ∈ st) :
    x ∈ (destroyRt rt a st).2 :=
  stopDestroyTree_stop_sup _ _ _ _ h

theorem destroyRt_stop_src (rt : FParallelBehaviorRuntime)
    (a st : List Nat) (x : Nat) (h : x ∈ (destroyRt rt a st).2) :
    x ∈ st ∨ (rt.TreeComponent = some x ∧ x ∈ a) :=
  stopDestroyTree_stop_src _ _ _ _ h

theorem destroyRt_tree_dead (rt : FParallelBehaviorRuntime)
    (a st : List Nat) (t : Nat) (h : rt.TreeComponent = some t) :
    t ∉ (destroyRt rt a st).1 := by
  intro hmem
  exact stopDestroyTree_dead t a st (h ▸ destroyBB_subset _ _ _ hmem)

theorem destroyRt_bb_dead (rt : FParallelBehaviorRuntime)
    (a st : List Nat) (b : Nat) (h : rt.BlackboardComponent = some b) :
    b ∉ (destroyRt rt a st).1 := by
  intro hmem
  rw [destroyRt] at hmem
  rw [h] at hmem
  exact destroyBB_dead b _ hmem

theorem destroyRt_tree_stop (rt : FParallelBehaviorRuntime)
    (a st : List Nat) (t : Nat) (h : rt.TreeComponent = some t)
    (ht : t ∈ a) : t ∈ (destroyRt rt a st).2 := by
  rw [destroyRt, h]
  exact stopDestroyTree_stop_mem t a st ht

theorem destroyRt_preserve (rt : FParallelBehaviorRuntime)
    (a st : List Nat) (x : Nat) (hx : x ∈ a)
    (h1 : rt.TreeComponent ≠ some x) (h2 : rt.BlackboardComponent ≠ some x) :
    x ∈ (destroyRt rt a st).1 :=
  destroyBB_preserve _ _ _ (stopDestroyTree_preserve _ _ _ _ hx h1) h2

theorem destroyRt_stale_stop (rt : FParallelBehaviorRuntime)
    (a st : List Nat) (x : Nat) (hx : x ∉ a) :
    x ∈ (destroyRt rt a st).2 ↔ x ∈ st := by
  constructor
  · intro h
    rcases destroyRt_stop_src rt a st x h with h1 | h1
    · exact h1
    · exact absurd h1.2 hx
  · exact destroyRt_stop_sup rt a st x

/-! ### Lemmas about the `RemoveTree` reverse scan -/

theorem removeTreeLoop_alive_subset (id : Nat)
    (running : List FParallelBehaviorRuntime) (k : Nat) :
    ∀ (a st : List Nat) (f : Option Nat) (x : Nat),
      x ∈ (removeTreeLoop id running k a st f).1 → x ∈ a := by
  induction k with
  | zero => intro a st f x h; exact h
  | succ i ih =>
    intro a st f x h
    cases hr : running[i]? with
    | none =>
      simp only [removeTreeLoop, hr] at h
      exact ih _ _ _ _ h
    | some rt =>
      by_cases hid : rt.Id == id
      · simp only [removeTreeLoop, hr, hid, if_true] at h
        exact destroyRt_alive_subset _ _ _ _ (ih _ _ _ _ h)
      · simp only [removeTreeLoop, hr, hid, if_false] at h
        exact ih _ _ _ _ h

theorem removeTreeLoop_stop_sup (id : Nat)
    (running : List FParallelBehaviorRuntime) (k : Nat) :
    ∀ (a st : List Nat) (f : Option Nat) (x : Nat),
      x ∈ st → x ∈ (removeTreeLoop id running k a st f).2.1 := by
  induction k with
  | zero => intro a st f x h; exact h
  | succ i ih =>
    intro a st f x h
    cases hr : running[i]? with
    | none =>
      simp only [removeTreeLoop, hr]
      exact ih _ _ _ _ h
    | some rt =>
      by_cases hid : rt.Id == id
      · simp only [removeTreeLoop, hr, hid, if_true]
        exact ih _ _ _ _ (destroyRt_stop_sup _ _ _ _ h)
      · simp only [removeTreeLoop, hr, hid, if_false]
        exact ih _ _ _ _ h

theorem removeTreeLoop_stale_stop (id : Nat)
    (running : List FParallelBehaviorRuntime) (k : Nat) :
    ∀ (a st : List Nat) (f : Option Nat) (x : Nat), x ∉ a →
      (x ∈ (removeTreeLoop id running k a st f).2.1 ↔ x ∈ st) := by
  induction k with
  | zero => intro a st f x _; exact Iff.rfl
  | succ i ih =>
    intro a st f x hx
    cases hr : running[i]? with
    | none =>
      simp only [removeTreeLoop, hr]
      exact ih _ _ _ _ hx
    | some rt =>
      by_cases hid : rt.Id == id
      · simp only [removeTreeLoop, hr, hid, if_true]
        have hx1 : x ∉ (destroyRt rt a st).1 :=
          fun hmem => hx (destroyRt_alive_subset _ _ _ _ hmem)
        exact (ih _ _ _ _ hx1).trans (destroyRt_stale_stop _ _ _ _ hx)
      · simp only [removeTreeLoop, hr, hid, if_false]
        exact ih _ _ _ _ hx

theorem removeTreeLoop_refs_dead (id : Nat)
    (running : List FParallelBehaviorRuntime) (k : Nat) :
    ∀ (a st : List Nat) (f : Option Nat) (j : Nat)
      (rt' : FParallelBehaviorRuntime), running[j]? = some rt' → j < k →
      rt'.Id = id → ∀ x ∈ rtRefs rt',
        x ∉ (removeTreeLoop id running k a st f).1 := by
  induction k with
  | zero => intro a st f j rt' _ hj _ x _; exact absurd hj (Nat.not_lt_zero j)
  | succ i ih =>
    intro a st f j rt' hj hjk hid' x hx
    rcases Nat.lt_succ_iff_lt_or_eq.mp hjk with hlt | heq
    · cases hr : running[i]? with
      | none =>
        simp only [removeTreeLoop, hr]
        exact ih _ _ _ _ _ hj hlt hid' x hx
      | some rt =>
        by_cases hid : rt.Id == id
        · simp only [removeTreeLoop, hr, hid, if_true]
          exact ih _ _ _ _ _ hj hlt hid' x hx
        · simp only [removeTreeLoop, hr, hid, if_false]
          exact ih _ _ _ _ _ hj hlt hid' x hx
    · subst heq
      have hid2 : rt'.Id == id := by simp [hid']
      simp only [removeTreeLoop, hj, hid2, if_true]
      intro hmem
      have hx1 : x ∈ (destroyRt rt' a st).1 :=
        removeTreeLoop_alive_subset id running j _ _ _ _ hmem
      rcases List.mem_append.mp hx with htc | hbc
      · rcases Option.mem_toList.mp htc with h
        exact destroyRt_tree_dead rt' a st x h hx1
      · rcases Option.mem_toList.mp hbc with h
        exact destroyRt_bb_dead rt' a st x h hx1

theorem removeTreeLoop_preserve (id : Nat)
    (running : List FParallelBehaviorRuntime) (k : Nat) :
    ∀ (a st : List Nat) (f : Option Nat) (x : Nat), x ∈ a →
      (∀ j rt', j < k → running[j]? = some rt' → rt'.Id = id →
        x ∉ rtRefs rt') →
      x ∈ (removeTreeLoop id running k a st f).1 := by
  induction k with
  | zero => intro a st f x hx _; exact hx
  | succ i ih =>
    intro a st f x hx hno
    cases hr : running[i]? with
    | none =>
      simp only [removeTreeLoop, hr]
      exact ih _ _ _ _ hx fun j rt' hj => hno j rt' (Nat.lt_succ_of_lt hj)
    | some rt =>
      by_cases hid : rt.Id == id
      · simp only [removeTreeLoop, hr, hid, if_true]
        have hidp : rt.Id = id := beq_iff_eq.mp hid
        have hxr : x ∉ rtRefs rt := hno i rt (Nat.lt_succ_self i) hr hidp
        have h1 : rt.TreeComponent ≠ some x := by
          intro hc
          exact hxr (List.mem_append.mpr (Or.inl (by simp [hc])))
        have h2 : rt.BlackboardComponent ≠ some x := by
          intro hc
          exact hxr (List.mem_append.mpr (Or.inr (by simp [hc])))
        exact ih _ _ _ _ (destroyRt_preserve rt a st x hx h1 h2)
          fun j rt' hj => hno j rt' (Nat.lt_succ_of_lt hj)
      · simp only [removeTreeLoop, hr, hid, if_false]
        exact ih _ _ _ _ hx fun j rt' hj => hno j rt' (Nat.lt_succ_of_lt hj)

theorem removeTreeLoop_stop_add (id : Nat)
    (running : List FParallelBehaviorRuntime) (k : Nat) :
    ∀ (a st : List Nat) (f : Option Nat) (j : Nat)
      (rt' : FParallelBehaviorRuntime) (t : Nat),
      running[j]? = some rt' → j < k → rt'.Id = id →
      rt'.TreeComponent = some t → t ∈ a →
      (∀ j' rt'', j' < k → j' ≠ j → running[j']? = some rt'' →
        rt''.Id = id → t ∉ rtRefs rt'') →
      t ∈ (removeTreeLoop id running k a st f).2.1 := by
  induction k with
  | zero => intro a st f j rt' t _ hj; exact absurd hj (Nat.not_lt_zero j)
  | succ i ih =>
    intro a st f j rt' t hj hjk hid' htc hta hdisj
    rcases Nat.lt_succ_iff_lt_or_eq.mp hjk with hlt | heq
    · cases hr : running[i]? with
      | none =>
        simp only [removeTreeLoop, hr]
        exact ih _ _ _ _ _ _ hj hlt hid' htc hta
          fun j' rt'' hj' => hdisj j' rt'' (Nat.lt_succ_of_lt hj')
      | some rt =>
        by_cases hid : rt.Id == id
        · simp only [removeTreeLoop, hr, hid, if_true]
          have hidp : rt.Id = id := beq_iff_eq.mp hid
          have hne : i ≠ j := Nat.ne_of_gt hlt
          have htr : t ∉ rtRefs rt :=
            hdisj i rt (Nat.lt_succ_self i) hne hr hidp
          have h1 : rt.TreeComponent ≠ some t := by
            intro hc
            exact htr (List.mem_append.mpr (Or.inl (by simp [hc])))
          have h2 : rt.BlackboardComponent ≠ some t := by
            intro hc
            exact htr (List.mem_append.mpr (Or.inr (by simp [hc])))
          exact ih _ _ _ _ _ _ hj hlt hid' htc
            (destroyRt_preserve rt a st t hta h1 h2)
            fun j' rt'' hj' => hdisj j' rt'' (Nat.lt_succ_of_lt hj')
        · simp only [removeTreeLoop, hr, hid, if_false]
          exact ih _ _ _ _ _ _ hj hlt hid' htc hta
            fun j' rt'' hj' => hdisj j' rt'' (Nat.lt_succ_of_lt hj')
    · subst heq
      have hid2 : rt'.Id == id := by simp [hid']
      simp only [removeTreeLoop, hj, hid2, if_true]
      exact removeTreeLoop_stop_sup id running j _ _ _ _
        (destroyRt_tree_stop rt' a st t htc hta)

theorem removeTreeLoop_nomatch (id : Nat)
    (running : List FParallelBehaviorRuntime) (k : Nat) :
    ∀ (a st : List Nat) (f : Option Nat),
      (∀ j rt', j < k → running[j]? = some rt' → rt'.Id ≠ id) →
      removeTreeLoop id running k a st f = (a, st, f) := by
  induction k with
  | zero => intro a st f _; rfl
  | succ i ih =>
    intro a st f hno
    cases hr : running[i]? with
    | none =>
      simp only [removeTreeLoop, hr]
      exact ih _ _ _ fun j rt' hj => hno j rt' (Nat.lt_succ_of_lt hj)
    | some rt =>
      have hid : ¬(rt.Id == id) := by
        simp only [beq_iff_eq]
        exact hno i rt (Nat.lt_succ_self i) hr
      simp only [removeTreeLoop, hr, hid, if_false]
      exact ih _ _ _ fun j rt' hj => hno j rt' (Nat.lt_succ_of_lt hj)

theorem removeTreeLoop_found_some (id : Nat)
    (running : List FParallelBehaviorRuntime) (k : Nat) :
    ∀ (a st : List Nat) (f : Option Nat) (j : Nat)
      (rt' : FParallelBehaviorRuntime),
      running[j]? = some rt' → j < k → rt'.Id = id →
      (∀ j' rt'', j' < j → running[j']? = some rt'' → rt''.Id ≠ id) →
      (removeTreeLoop id running k a st f).2.2 = some j := by
  induction k with
  | zero => intro a st f j rt' _ hj; exact absurd hj (Nat.not_lt_zero j)
  | succ i ih =>
    intro a st f j rt' hj hjk hid' hmin
    rcases Nat.lt_succ_iff_lt_or_eq.mp hjk with hlt | heq
    · cases hr : running[i]? with
      | none =>
        simp only [removeTreeLoop, hr]
        exact ih _ _ _ _ _ hj hlt hid' hmin
      | some rt =>
        by_cases hid : rt.Id == id
        · simp only [removeTreeLoop, hr, hid, if_true]
          exact ih _ _ _ _ _ hj hlt hid' hmin
        · simp only [removeTreeLoop, hr, hid, if_false]
          exact ih _ _ _ _ _ hj hlt hid' hmin
    · subst heq
      have hid2 : rt'.Id == id := by simp [hid']
      simp only [removeTreeLoop, hj, hid2, if_true]
      rw [removeTreeLoop_nomatch id running j _ _ _ hmin]

theorem removeTreeLoop_found_src (id : Nat)
    (running : List FParallelBehaviorRuntime) (k : Nat) :
    ∀ (a st : List Nat) (f : Option Nat) (i' : Nat),
      (removeTreeLoop id running k a st f).2.2 = some i' →
      f = some i' ∨ ∃ rt', running[i']? = some rt' ∧ rt'.Id = id ∧ i' < k := by
  induction k with
  | zero => intro a st f i' h; exact Or.inl h
  | succ i ih =>
    intro a st f i' h
    cases hr : running[i]? with
    | none =>
      simp only [removeTreeLoop, hr] at h
      rcases ih _ _ _ _ h with h1 | ⟨rt', h1, h2, h3⟩
      · exact Or.inl h1
      · exact Or.inr ⟨rt', h1, h2, Nat.lt_succ_of_lt h3⟩
    | some rt =>
      by_cases hid : rt.Id == id
      · simp only [removeTreeLoop, hr, hid, if_true] at h
        rcases ih _ _ _ _ h with h1 | ⟨rt', h1, h2, h3⟩
        · have : i = i' := by
            injection h1
          subst this
          exact Or.inr ⟨rt, hr, beq_iff_eq.mp hid, Nat.lt_succ_self i⟩
        · exact Or.inr ⟨rt', h1, h2, Nat.lt_succ_of_lt h3⟩
      · simp only [removeTreeLoop, hr, hid, if_false] at h
        rcases ih _ _ _ _ h with h1 | ⟨rt', h1, h2, h3⟩
        · exact Or.inl h1
        · exact Or.inr ⟨rt', h1, h2, Nat.lt_succ_of_lt h3⟩

/-! ### Lemmas about the `RemoveAllTrees` reverse scan -/

theorem removeAllLoop_alive_subset
    (running : List FParallelBehaviorRuntime) (k : Nat) :
    ∀ (a st : List Nat) (x : Nat),
      x ∈ (removeAllLoop running k a st).1 → x ∈ a := by
  induction k with
  | zero => intro a st x h; exact h
  | succ i ih =>
    intro a st x h
    cases hr : running[i]? with
    | none =>
      simp only [removeAllLoop, hr] at h
      exact ih _ _ _ h
    | some rt =>
      simp only [removeAllLoop, hr] at h
      exact destroyRt_alive_subset _ _ _ _ (ih _ _ _ h)

theorem removeAllLoop_stop_sup
    (running : List FParallelBehaviorRuntime) (k : Nat) :
    ∀ (a st : List Nat) (x : Nat),
      x ∈ st → x ∈ (removeAllLoop running k a st).2 := by
  induction k with
  | zero => intro a st x h; exact h
  | succ i ih =>
    intro a st x h
    cases hr : running[i]? with
    | none =>
      simp only [removeAllLoop, hr]
      exact ih _ _ _ h
    | some rt =>
      simp only [removeAllLoop, hr]
      exact ih _ _ _ (destroyRt_stop_sup _ _ _ _ h)

theorem removeAllLoop_stale_stop
    (running : List FParallelBehaviorRuntime) (k : Nat) :
    ∀ (a st : List Nat) (x : Nat), x ∉ a →
      (x ∈ (removeAllLoop running k a st).2 ↔ x ∈ st) := by
  induction k with
  | zero => intro a st x _; exact Iff.rfl
  | succ i ih =>
    intro a st x hx
    cases hr : running[i]? with
    | none =>
      simp only [removeAllLoop, hr]
      exact ih _ _ _ hx
    | some rt =>
      simp only [removeAllLoop, hr]
      have hx1 : x ∉ (destroyRt rt a st).1 :=
        fun hmem => hx (destroyRt_alive_subset _ _ _ _ hmem)
      exact (ih _ _ _ hx1).trans (destroyRt_stale_stop _ _ _ _ hx)

theorem removeAllLoop_refs_dead
    (running : List FParallelBehaviorRuntime) (k : Nat) :
    ∀ (a st : List Nat) (j : Nat) (rt' : FParallelBehaviorRuntime),
      running[j]? = some rt' → j < k → ∀ x ∈ rtRefs rt',
        x ∉ (removeAllLoop running k a st).1 := by
  induction k with
  | zero => intro a st j rt' _ hj x _; exact absurd hj (Nat.not_lt_zero j)
  | succ i ih =>
    intro a st j rt' hj hjk x hx
    rcases Nat.lt_succ_iff_lt_or_eq.mp hjk with hlt | heq
    · cases hr : running[i]? with
      | none =>
        simp only [removeAllLoop, hr]
        exact ih _ _ _ _ hj hlt x hx
      | some rt =>
        simp only [removeAllLoop, hr]
        exact ih _ _ _ _ hj hlt x hx
    · subst heq
      simp only [removeAllLoop, hj]
      intro hmem
      have hx1 : x ∈ (destroyRt rt' a st).1 :=
        removeAllLoop_alive_subset running j _ _ _ hmem
      rcases List.mem_append.mp hx with htc | hbc
      · rcases Option.mem_toList.mp htc with h
        exact destroyRt_tree_dead rt' a st x h hx1
      · rcases Option.mem_toList.mp hbc with h
        exact destroyRt_bb_dead rt' a st x h hx1

theorem removeAllLoop_stop_add
    (running : List FParallelBehaviorRuntime) (k : Nat) :
    ∀ (a st : List Nat) (j : Nat) (rt' : FParallelBehaviorRuntime)
      (t : Nat), running[j]? = some rt' → j < k →
      rt'.TreeComponent = some t → t ∈ a →
      (∀ j' rt'', j' < k → j' ≠ j → running[j']? = some rt'' →
        t ∉ rtRefs rt'') →
      t ∈ (removeAllLoop running k a st).2 := by
  induction k with
  | zero => intro a st j rt' t _ hj; exact absurd hj (Nat.not_lt_zero j)
  | succ i ih =>
    intro a st j rt' t hj hjk htc hta hdisj
    rcases Nat.lt_succ_iff_lt_or_eq.mp hjk with hlt | heq
    · cases hr : running[i]? with
      | none =>
        simp only [removeAllLoop, hr]
        exact ih _ _ _ _ _ hj hlt htc hta
          fun j' rt'' hj' => hdisj j' rt'' (Nat.lt_succ_of_lt hj')
      | some rt =>
        simp only [removeAllLoop, hr]
        have hne : i ≠ j := Nat.ne_of_gt hlt
        have htr : t ∉ rtRefs rt := hdisj i rt (Nat.lt_succ_self i) hne hr
        have h1 : rt.TreeComponent ≠ some t := by
          intro hc
          exact htr (List.mem_append.mpr (Or.inl (by simp [hc])))
        have h2 : rt.BlackboardComponent ≠ some t := by
          intro hc
          exact htr (List.mem_append.mpr (Or.inr (by simp [hc])))
        exact ih _ _ _ _ _ hj hlt htc
          (destroyRt_preserve rt a st t hta h1 h2)
          fun j' rt'' hj' => hdisj j' rt'' (Nat.lt_succ_of_lt hj')
    · subst heq
      simp only [removeAllLoop, hj]
      exact removeAllLoop_stop_sup running j _ _ _
        (destroyRt_tree_stop rt' a st t htc hta)

/-! ### Lemmas about the `GetTree` scan -/

theorem weakGet_live (alive : List Nat) (w : Option Nat) (t : Nat)
    (h : weakGet alive w = some t) : t ∈ alive := by
  cases w with
  | none => exact absurd h (by simp [weakGet])
  | some o =>
    by_cases ho : o ∈ alive <;> simp only [weakGet, ho, if_true,
      if_false] at h
    · injection h with h1
      exact h1 ▸ ho
    · exact Option.noConfusion h

theorem getTreeLoop_ok_of_match (alive : List Nat)
    (running : List FParallelBehaviorRuntime) (id : Nat) (rem : Nat) :
    ∀ (i : Nat),
      (∃ j rt, i ≤ j ∧ running[j]? = some rt ∧ rt.Id = id) →
      ∃ r, getTreeLoop alive running id rem i = Except.ok r := by
  induction rem with
  | zero => intro i _; exact ⟨none, rfl⟩
  | succ n ih =>
    intro i hex
    rcases hex with ⟨j, rt, hij, hj, hid⟩
    have hjlen : j < running.length := by
      by_contra hge
      rw [List.getElem?_eq_none (Nat.le_of_not_lt hge)] at hj
      exact Option.noConfusion hj
    have hilen : i < running.length := Nat.lt_of_le_of_lt hij hjlen
    cases hri2 : running[i]? with
    | none =>
      rw [List.getElem?_eq_getElem hilen] at hri2
      exact Option.noConfusion hri2
    | some rti =>
      by_cases hidi : rti.Id == id
      · exact ⟨weakGet alive rti.TreeComponent, by
          simp only [getTreeLoop, hri2, hidi, if_true]⟩
      · have : getTreeLoop alive running id (n + 1) i =
            getTreeLoop alive running id n (i + 1) := by
          simp only [getTreeLoop, hri2]
          exact if_neg hidi
        rw [this]
        refine ih (i + 1) ⟨j, rt, ?_, hj, hid⟩
        rcases Nat.lt_or_ge i j with hlt | hge
        · exact hlt
        · exfalso
          have : i = j := Nat.le_antisymm hij hge
          subst this
          rw [hri2] at hj
          injection hj with hj2
          subst hj2
          exact hidi (by simp [hid])

theorem getTreeLoop_live (alive : List Nat)
    (running : List FParallelBehaviorRuntime) (id : Nat) (rem : Nat) :
    ∀ (i t : Nat),
      getTreeLoop alive running id rem i = Except.ok (some t) →
      t ∈ alive := by
  induction rem with
  | zero =>
    intro i t h
    simp only [getTreeLoop] at h
    injection h with h1
    exact Option.noConfusion h1
  | succ n ih =>
    intro i t h
    cases hri : running[i]? with
    | none =>
      simp only [getTreeLoop, hri] at h
      exact Except.noConfusion h
    | some rt =>
      by_cases hid : rt.Id == id
      · simp only [getTreeLoop, hri, hid, if_true] at h
        injection h with h1
        exact weakGet_live alive rt.TreeComponent t h1
      · have heq : getTreeLoop alive running id (n + 1) i =
            getTreeLoop alive running id n (i + 1) := by
          simp only [getTreeLoop, hri]
          exact if_neg hid
        rw [heq] at h
        exact ih _ _ h

/-! ### Operation-level characterizations -/

/-- A small helper: a `getElem?` hit is within bounds. -/
theorem lt_length_of_getElem {α : Type} (l : List α) (j : Nat) (a : α)
    (h : l[j]? = some a) : j < l.length := by
  by_contra hge
  rw [List.getElem?_eq_none (Nat.le_of_not_lt hge)] at h
  exact Option.noConfusion h

/-- Index `j` of the registry holds a record whose id matches. -/
def matchAtB (id : Nat) (running : List FParallelBehaviorRuntime)
    (j : Nat) : Bool :=
  match running[j]? with
  | some rt => rt.Id == id
  | none => false

theorem matchAtB_true_iff (id : Nat)
    (running : List FParallelBehaviorRuntime) (j : Nat) :
    matchAtB id running j = true ↔
      ∃ rt, running[j]? = some rt ∧ rt.Id = id := by
  cases hr : running[j]? with
  | none =>
    simp only [matchAtB, hr]
    constructor
    · intro h; exact Bool.noConfusion h
    · rintro ⟨rt, h, _⟩; exact Option.noConfusion h
  | some rt =>
    simp only [matchAtB, hr, beq_iff_eq]
    constructor
    · intro h; exact ⟨rt, rfl, h⟩
    · rintro ⟨rt', h, hid⟩
      injection h with h1
      exact h1 ▸ hid

theorem any_match_iff (id : Nat)
    (running : List FParallelBehaviorRuntime) :
    running.any (fun rt => rt.Id == id) = true ↔
      ∃ j, matchAtB id running j = true := by
  rw [List.any_eq_true]
  constructor
  · rintro ⟨rt, hmem, hid⟩
    obtain ⟨j, hj⟩ := List.mem_iff_getElem?.mp hmem
    exact ⟨j, (matchAtB_true_iff id running j).mpr
      ⟨rt, hj, beq_iff_eq.mp hid⟩⟩
  · rintro ⟨j, hj⟩
    obtain ⟨rt, hjr, hid⟩ := (matchAtB_true_iff id running j).mp hj
    exact ⟨rt, List.mem_iff_getElem?.mpr ⟨j, hjr⟩, beq_iff_eq.mpr hid⟩

theorem exists_least_matchAt (id : Nat)
    (running : List FParallelBehaviorRuntime)
    (h : ∃ j, matchAtB id running j = true) :
    ∃ j, matchAtB id running j = true ∧
      ∀ j' < j, matchAtB id running j' = false :=
  ⟨Nat.find h, Nat.find_spec h, fun _ hj' =>
    Bool.eq_false_iff.mpr (Nat.find_min h hj')⟩

/-- Unfolding `RemoveTree`: the resulting `alive` and `stopped` components
come straight from the scan, whether or not a match was found. -/
theorem RemoveTree_alive_stopped (s : ManagerState) (id : Nat) :
    (RemoveTree s id).2.alive =
      (removeTreeLoop id s.RunningTrees s.RunningTrees.length s.alive
        s.stopped none).1 ∧
    (RemoveTree s id).2.stopped =
      (removeTreeLoop id s.RunningTrees s.RunningTrees.length s.alive
        s.stopped none).2.1 := by
  simp only [RemoveTree]
  cases (removeTreeLoop id s.RunningTrees s.RunningTrees.length s.alive
      s.stopped none).2.2 with
  | none => exact ⟨rfl, rfl⟩
  | some i => exact ⟨rfl, rfl⟩

/-- `RemoveTree` on an id with no matching record returns false and leaves
the state fully unchanged (no log entry, no teardown). -/
theorem RemoveTree_nomatch (s : ManagerState) (id : Nat)
    (h : ∀ rt ∈ s.RunningTrees, rt.Id ≠ id) :
    RemoveTree s id = (false, s) := by
  have hno : ∀ j rt', j < s.RunningTrees.length →
      s.RunningTrees[j]? = some rt' → rt'.Id ≠ id := by
    intro j rt' _ hjr
    exact h rt' (List.mem_iff_getElem?.mpr ⟨j, hjr⟩)
  simp only [RemoveTree,
    removeTreeLoop_nomatch id s.RunningTrees s.RunningTrees.length
      s.alive s.stopped none hno]

/-- `RemoveTree`'s boolean result is exactly "some record matches". -/
theorem RemoveTree_fst (s : ManagerState) (id : Nat) :
    (RemoveTree s id).1 = s.RunningTrees.any (fun rt => rt.Id == id) := by
  by_cases h : s.RunningTrees.any (fun rt => rt.Id == id) = true
  · obtain ⟨j0, hj0, hmin⟩ :=
      exists_least_matchAt id s.RunningTrees ((any_match_iff id _).mp h)
    obtain ⟨rt0, hrt0, hid0⟩ := (matchAtB_true_iff id _ j0).mp hj0
    have hmin' : ∀ j' rt'', j' < j0 →
        s.RunningTrees[j']? = some rt'' → rt''.Id ≠ id := by
      intro j' rt'' hj' hjr hid'
      have := (matchAtB_true_iff id s.RunningTrees j').mpr ⟨rt'', hjr, hid'⟩
      rw [hmin j' hj'] at this
      exact Bool.noConfusion this
    have hfound := removeTreeLoop_found_some id s.RunningTrees
      s.RunningTrees.length s.alive s.stopped none j0 rt0 hrt0
      (lt_length_of_getElem _ _ _ hrt0) hid0 hmin'
    simp only [RemoveTree, hfound, h]
  · have h' : ∀ rt ∈ s.RunningTrees, rt.Id ≠ id := by
      intro rt hmem hid
      exact h (List.any_eq_true.mpr ⟨rt, hmem, beq_iff_eq.mpr hid⟩)
    rw [RemoveTree_nomatch s id h']
    exact (Bool.eq_false_iff.mpr h).symm

/-- When a record matches, `RemoveTree` removes exactly the record at the
earliest-inserted (lowest) matching index from the registry, and logs. -/
theorem RemoveTree_registry_match (s : ManagerState) (id : Nat)
    (h : ∃ rt ∈ s.RunningTrees, rt.Id = id) :
    ∃ j, matchAtB id s.RunningTrees j = true ∧
      (∀ j' < j, matchAtB id s.RunningTrees j' = false) ∧
      (RemoveTree s id).2.RunningTrees = s.RunningTrees.eraseIdx j ∧
      (RemoveTree s id).2.log = LogEvent.logTreeRemoved :: s.log := by
  have hany : s.RunningTrees.any (fun rt => rt.Id == id) = true := by
    obtain ⟨rt, hmem, hid⟩ := h
    exact List.any_eq_true.mpr ⟨rt, hmem, beq_iff_eq.mpr hid⟩
  obtain ⟨j0, hj0, hmin⟩ :=
    exists_least_matchAt id s.RunningTrees ((any_match_iff id _).mp hany)
  obtain ⟨rt0, hrt0, hid0⟩ := (matchAtB_true_iff id _ j0).mp hj0
  have hmin' : ∀ j' rt'', j' < j0 →
      s.RunningTrees[j']? = some rt'' → rt''.Id ≠ id := by
    intro j' rt'' hj' hjr hid'
    have := (matchAtB_true_iff id s.RunningTrees j').mpr ⟨rt'', hjr, hid'⟩
    rw [hmin j' hj'] at this
    exact Bool.noConfusion this
  have hfound := removeTreeLoop_found_some id s.RunningTrees
    s.RunningTrees.length s.alive s.stopped none j0 rt0 hrt0
    (lt_length_of_getElem _ _ _ hrt0) hid0 hmin'
  refine ⟨j0, hj0, hmin, ?_, ?_⟩ <;> simp only [RemoveTree, hfound]

/-- Every matching record's referenced components are dead after
`RemoveTree` — including those of matching records that stay in the
registry. -/
theorem RemoveTree_refs_dead (s : ManagerState) (id : Nat) (j : Nat)
    (rt' : FParallelBehaviorRuntime) (hj : s.RunningTrees[j]? = some rt')
    (hid : rt'.Id = id) :
    ∀ x ∈ rtRefs rt', x ∉ (RemoveTree s id).2.alive := by
  intro x hx
  rw [(RemoveTree_alive_stopped s id).1]
  exact removeTreeLoop_refs_dead id s.RunningTrees s.RunningTrees.length
    s.alive s.stopped none j rt' hj (lt_length_of_getElem _ _ _ hj) hid
    x hx

/-- Every matching record's live executor receives a graceful stop during
`RemoveTree`, provided no other matching record aliases it. -/
theorem RemoveTree_stop (s : ManagerState) (id : Nat) (j : Nat)
    (rt' : FParallelBehaviorRuntime) (t : Nat)
    (hj : s.RunningTrees[j]? = some rt') (hid : rt'.Id = id)
    (htc : rt'.TreeComponent = some t) (hta : t ∈ s.alive)
    (hdisj : ∀ j' rt'', j' ≠ j → s.RunningTrees[j']? = some rt'' →
      rt''.Id = id → t ∉ rtRefs rt'') :
    t ∈ (RemoveTree s id).2.stopped := by
  rw [(RemoveTree_alive_stopped s id).2]
  exact removeTreeLoop_stop_add id s.RunningTrees s.RunningTrees.length
    s.alive s.stopped none j rt' t hj (lt_length_of_getElem _ _ _ hj)
    hid htc hta fun j' rt'' _ hne hjr hid' => hdisj j' rt'' hne hjr hid'

/-- `RemoveTree` never touches an object that is already dead: a stale
handle is skipped, not stopped. -/
theorem RemoveTree_stale_skip (s : ManagerState) (id : Nat) (x : Nat)
    (hx : x ∉ s.alive) :
    (x ∈ (RemoveTree s id).2.stopped ↔ x ∈ s.stopped) := by
  rw [(RemoveTree_alive_stopped s id).2]
  exact removeTreeLoop_stale_stop id s.RunningTrees s.RunningTrees.length
    s.alive s.stopped none x hx

/-- `RemoveTree` only ever removes objects from the live set. -/
theorem RemoveTree_alive_subset (s : ManagerState) (id : Nat) (x : Nat)
    (hx : x ∈ (RemoveTree s id).2.alive) : x ∈ s.alive := by
  rw [(RemoveTree_alive_stopped s id).1] at hx
  exact removeTreeLoop_alive_subset id s.RunningTrees
    s.RunningTrees.length s.alive s.stopped none x hx

/-- `RemoveAllTrees` empties the registry. -/
theorem RemoveAllTrees_registry (s : ManagerState) :
    (RemoveAllTrees s).RunningTrees = [] := rfl

/-- `RemoveAllTrees` only ever removes objects from the live set. -/
theorem RemoveAllTrees_alive_subset (s : ManagerState) (x : Nat)
    (hx : x ∈ (RemoveAllTrees s).alive) : x ∈ s.alive :=
  removeAllLoop_alive_subset s.RunningTrees s.RunningTrees.length
    s.alive s.stopped x hx

/-- After `RemoveAllTrees`, every component referenced by any registry
record is dead. -/
theorem RemoveAllTrees_refs_dead (s : ManagerState) (j : Nat)
    (rt' : FParallelBehaviorRuntime) (hj : s.RunningTrees[j]? = some rt') :
    ∀ x ∈ rtRefs rt', x ∉ (RemoveAllTrees s).alive := by
  intro x hx
  exact removeAllLoop_refs_dead s.RunningTrees s.RunningTrees.length
    s.alive s.stopped j rt' hj (lt_length_of_getElem _ _ _ hj) x hx

/-- During `RemoveAllTrees`, every record's live executor receives a
graceful stop, provided no other record aliases it. -/
theorem RemoveAllTrees_stop (s : ManagerState) (j : Nat)
    (rt' : FParallelBehaviorRuntime) (t : Nat)
    (hj : s.RunningTrees[j]? = some rt')
    (htc : rt'.TreeComponent = some t) (hta : t ∈ s.alive)
    (hdisj : ∀ j' rt'', j' ≠ j → s.RunningTrees[j']? = some rt'' →
      t ∉ rtRefs rt'') :
    t ∈ (RemoveAllTrees s).stopped :=
  removeAllLoop_stop_add s.RunningTrees s.RunningTrees.length s.alive
    s.stopped j rt' t hj (lt_length_of_getElem _ _ _ hj) htc hta
    fun j' rt'' _ hne hjr => hdisj j' rt'' hne hjr

/-- `RemoveAllTrees` never touches an object that is already dead. -/
theorem RemoveAllTrees_stale_skip (s : ManagerState) (x : Nat)
    (hx : x ∉ s.alive) :
    (x ∈ (RemoveAllTrees s).stopped ↔ x ∈ s.stopped) :=
  removeAllLoop_stale_stop s.RunningTrees s.RunningTrees.length s.alive
    s.stopped x hx

/-- On an empty registry `RemoveAllTrees` is a no-op. -/
theorem RemoveAllTrees_empty_noop (s : ManagerState)
    (h : s.RunningTrees = []) : RemoveAllTrees s = s := by
  have hr : removeAllLoop s.RunningTrees s.RunningTrees.length s.alive
      s.stopped = (s.alive, s.stopped) := by
    rw [h]
    rfl
  simp only [RemoveAllTrees, hr]
  rw [← h]

/-- `RemoveAllTrees` is idempotent (safe to call twice in a row). -/
theorem RemoveAllTrees_idem (s : ManagerState) :
    RemoveAllTrees (RemoveAllTrees s) = RemoveAllTrees s :=
  RemoveAllTrees_empty_noop _ (RemoveAllTrees_registry s)

/-! ### `AddTree` case equations -/

/-- `AddTree` with a null tree asset: warn, fail, touch nothing else. -/
theorem AddTree_null (s : ManagerState) (setup : FParallelBehaviorSetup)
    (h : setup.BTAsset = none) :
    AddTree s setup =
      (false, { s with log := LogEvent.warnNullTree :: s.log }) := by
  simp only [AddTree, h]

/-- `AddTree` when the tree asset has no blackboard schema: warn, create
and start only the executor, append the record with an absent blackboard
handle, succeed. -/
theorem AddTree_noBB (s : ManagerState) (setup : FParallelBehaviorSetup)
    (bt : UBehaviorTree) (h : setup.BTAsset = some bt)
    (hbb : bt.BlackboardAsset = none) :
    AddTree s setup = (true,
      { s with
        RunningTrees :=
          s.RunningTrees ++ [⟨setup.Id, some s.nextObj, none⟩],
        alive := s.nextObj :: s.alive,
        nextObj := s.nextObj + 1,
        log := LogEvent.logTreeStarted ::
          LogEvent.warnNullBlackboardAsset :: s.log }) := by
  simp only [AddTree, h, hbb]

/-- `AddTree` when the tree asset has a blackboard schema: construct the
blackboard (object `s.nextObj`) and the executor (object `s.nextObj + 1`),
set the "self" key exactly when initialization succeeds and the schema has
the key, append the record with both handles present, succeed — with no
diagnostic, whether or not initialization succeeded. -/
theorem AddTree_withBB (s : ManagerState) (setup : FParallelBehaviorSetup)
    (bt : UBehaviorTree) (bb : UBlackboardData)
    (h : setup.BTAsset = some bt) (hbb : bt.BlackboardAsset = some bb) :
    AddTree s setup = (true,
      { s with
        RunningTrees := s.RunningTrees ++
          [⟨setup.Id, some (s.nextObj + 1), some s.nextObj⟩],
        alive := (s.nextObj + 1) :: s.nextObj :: s.alive,
        selfKeySet :=
          if bb.initSucceeds && bb.hasSelfKey then
            s.nextObj :: s.selfKeySet
          else s.selfKeySet,
        nextObj := s.nextObj + 2,
        log := LogEvent.logTreeStarted :: s.log }) := by
  simp only [AddTree, h, hbb]
  by_cases hi : bb.initSucceeds && bb.hasSelfKey <;> simp [hi]

/-- `AddTree` never changes the configured defaults list. -/
theorem AddTree_defaults (s : ManagerState)
    (setup : FParallelBehaviorSetup) :
    (AddTree s setup).2.ParallelBehaviorDefaults =
      s.ParallelBehaviorDefaults := by
  cases h : setup.BTAsset with
  | none => rw [AddTree_null s setup h]
  | some bt =>
    cases hbb : bt.BlackboardAsset with
    | none => rw [AddTree_noBB s setup bt h hbb]
    | some bb => rw [AddTree_withBB s setup bt bb h hbb]

/-! ### Well-formedness invariants of reachable states -/

/-- Distinct registry records reference disjoint component objects. -/
def RefsDisjoint (running : List FParallelBehaviorRuntime) : Prop :=
  ∀ (j j' : Nat) (rt rt' : FParallelBehaviorRuntime),
    running[j]? = some rt → running[j']? = some rt' →
    ∀ x, x ∈ rtRefs rt → x ∈ rtRefs rt' → j = j'

/-- Every referenced component id is below the allocation counter. -/
def RefsBound (running : List FParallelBehaviorRuntime) (n : Nat) : Prop :=
  ∀ (j : Nat) (rt : FParallelBehaviorRuntime), running[j]? = some rt →
    ∀ x ∈ rtRefs rt, x < n

/-- Every live object is referenced by some registry record. -/
def AliveRefd (running : List FParallelBehaviorRuntime)
    (alive : List Nat) : Prop :=
  ∀ o ∈ alive, ∃ (j : Nat) (rt : FParallelBehaviorRuntime),
    running[j]? = some rt ∧ o ∈ rtRefs rt

/-- The well-formedness invariant the manager's own operations maintain:
records reference pairwise-disjoint, in-bounds objects, and every live
object is referenced. -/
def Inv (s : ManagerState) : Prop :=
  RefsDisjoint s.RunningTrees ∧ RefsBound s.RunningTrees s.nextObj ∧
    AliveRefd s.RunningTrees s.alive

theorem initState_inv (defaults : List FParallelBehaviorSetup) :
    Inv (initState defaults) := by
  refine ⟨?_, ?_, ?_⟩
  · unfold RefsDisjoint
    intro j j' rt rt' hj
    simp [initState] at hj
  · unfold RefsBound
    intro j rt hj
    simp [initState] at hj
  · unfold AliveRefd
    intro o ho
    simp [initState] at ho

/-- On an append of one fresh record, `getElem?` either hits the old list
or the new record. -/
theorem getElem?_append_one {α : Type} (l : List α) (a : α) (j : Nat) :
    (l ++ [a])[j]? =
      if j < l.length then l[j]?
      else if j = l.length then some a else none := by
  rw [List.getElem?_append]
  by_cases hj : j < l.length
  · rw [if_pos hj, if_pos hj]
  · rw [if_neg hj, if_neg hj]
    by_cases hj2 : j = l.length
    · subst hj2
      simp
    · rw [if_neg hj2]
      have hgt : l.length < j :=
        Nat.lt_of_le_of_ne (Nat.le_of_not_lt hj) (Ne.symm hj2)
      have h1 : 1 ≤ j - l.length := by omega
      apply List.getElem?_eq_none
      simpa using h1

/-- Appending one record whose references are fresh preserves the three
record-level invariants. -/
theorem inv_snoc (running : List FParallelBehaviorRuntime)
    (nOld nNew : Nat) (alive newAlive : List Nat)
    (rt0 : FParallelBehaviorRuntime)
    (hdisj : RefsDisjoint running) (hbound : RefsBound running nOld)
    (hrefd : AliveRefd running alive)
    (hlow : ∀ x ∈ rtRefs rt0, nOld ≤ x)
    (hhigh : ∀ x ∈ rtRefs rt0, x < nNew)
    (hle : nOld ≤ nNew)
    (hnewAlive : ∀ o ∈ newAlive, o ∈ rtRefs rt0 ∨ o ∈ alive) :
    RefsDisjoint (running ++ [rt0]) ∧
    RefsBound (running ++ [rt0]) nNew ∧
    AliveRefd (running ++ [rt0]) newAlive := by
  refine ⟨?_, ?_, ?_⟩
  · unfold RefsDisjoint
    intro j j' rt rt' hj hj' x hx hx'
    rw [getElem?_append_one] at hj hj'
    split at hj
    · split at hj'
      · exact hdisj j j' rt rt' hj hj' x hx hx'
      · split at hj'
        · exfalso
          injection hj' with he
          subst he
          have h1 := hbound j rt hj x hx
          have h2 := hlow x hx'
          omega
        · exact Option.noConfusion hj'
    · split at hj
      · split at hj'
        · exfalso
          injection hj with he
          subst he
          have h1 := hbound j' rt' hj' x hx'
          have h2 := hlow x hx
          omega
        · split at hj'
          · omega
          · exact Option.noConfusion hj'
      · exact Option.noConfusion hj
  · unfold RefsBound
    intro j rt hj x hx
    rw [getElem?_append_one] at hj
    split at hj
    · have := hbound j rt hj x hx
      omega
    · split at hj
      · injection hj with he
        subst he
        exact hhigh x hx
      · exact Option.noConfusion hj
  · unfold AliveRefd
    intro o ho
    rcases hnewAlive o ho with hnew | hold
    · refine ⟨running.length, rt0, ?_, hnew⟩
      rw [getElem?_append_one, if_neg (Nat.lt_irrefl _), if_pos rfl]
    · obtain ⟨j, rt, hj, href⟩ := hrefd o hold
      have hjl : j < running.length := lt_length_of_getElem _ _ _ hj
      refine ⟨j, rt, ?_, href⟩
      rw [getElem?_append_one, if_pos hjl]
      exact hj

theorem AddTree_inv (s : ManagerState) (setup : FParallelBehaviorSetup)
    (hinv : Inv s) : Inv (AddTree s setup).2 := by
  obtain ⟨hdisj, hbound, hrefd⟩ := hinv
  cases h : setup.BTAsset with
  | none =>
    rw [AddTree_null s setup h]
    exact ⟨hdisj, hbound, hrefd⟩
  | some bt =>
    cases hbb : bt.BlackboardAsset with
    | none =>
      rw [AddTree_noBB s setup bt h hbb]
      refine inv_snoc s.RunningTrees s.nextObj (s.nextObj + 1) s.alive _
        ⟨setup.Id, some s.nextObj, none⟩ hdisj hbound hrefd ?_ ?_ ?_ ?_
      · intro x hx
        have : x = s.nextObj := by simpa [rtRefs] using hx
        omega
      · intro x hx
        have : x = s.nextObj := by simpa [rtRefs] using hx
        omega
      · omega
      · intro o ho
        rcases List.mem_cons.mp ho with he | ho'
        · exact Or.inl (by simp [rtRefs, he])
        · exact Or.inr ho'
    | some bb =>
      rw [AddTree_withBB s setup bt bb h hbb]
      refine inv_snoc s.RunningTrees s.nextObj (s.nextObj + 2) s.alive _
        ⟨setup.Id, some (s.nextObj + 1), some s.nextObj⟩ hdisj hbound
        hrefd ?_ ?_ ?_ ?_
      · intro x hx
        have : x = s.nextObj + 1 ∨ x = s.nextObj := by
          simpa [rtRefs] using hx
        omega
      · intro x hx
        have : x = s.nextObj + 1 ∨ x = s.nextObj := by
          simpa [rtRefs] using hx
        omega
      · omega
      · intro o ho
        rcases List.mem_cons.mp ho with he | ho'
        · exact Or.inl (by simp [rtRefs, he])
        · rcases List.mem_cons.mp ho' with he | ho''
          · exact Or.inl (by simp [rtRefs, he])
          · exact Or.inr ho''

/-- `RemoveTree` does not advance the allocation counter. -/
theorem RemoveTree_nextObj (s : ManagerState) (id : Nat) :
    (RemoveTree s id).2.nextObj = s.nextObj := by
  simp only [RemoveTree]
  cases (removeTreeLoop id s.RunningTrees s.RunningTrees.length s.alive
      s.stopped none).2.2 with
  | none => rfl
  | some i => rfl

theorem RemoveTree_inv (s : ManagerState) (id : Nat) (hinv : Inv s) :
    Inv (RemoveTree s id).2 := by
  obtain ⟨hdisj, hbound, hrefd⟩ := hinv
  by_cases h : ∃ rt ∈ s.RunningTrees, rt.Id = id
  · obtain ⟨j0, hj0, hmin, hreg, hlog⟩ := RemoveTree_registry_match s id h
    obtain ⟨rt0, hrt0, hid0⟩ := (matchAtB_true_iff id _ j0).mp hj0
    refine ⟨?_, ?_, ?_⟩
    · unfold RefsDisjoint
      intro j j' rt rt' hj hj' x hx hx'
      rw [hreg, List.getElem?_eraseIdx] at hj hj'
      split at hj <;> split at hj'
      · have := hdisj j j' rt rt' hj hj' x hx hx'
        omega
      · have := hdisj j (j' + 1) rt rt' hj hj' x hx hx'
        omega
      · have := hdisj (j + 1) j' rt rt' hj hj' x hx hx'
        omega
      · have := hdisj (j + 1) (j' + 1) rt rt' hj hj' x hx hx'
        omega
    · unfold RefsBound
      intro j rt hj x hx
      rw [RemoveTree_nextObj]
      rw [hreg, List.getElem?_eraseIdx] at hj
      split at hj
      · exact hbound j rt hj x hx
      · exact hbound (j + 1) rt hj x hx
    · unfold AliveRefd
      intro o ho
      have hos : o ∈ s.alive := RemoveTree_alive_subset s id o ho
      obtain ⟨j, rt, hj, href⟩ := hrefd o hos
      by_cases hid : rt.Id = id
      · exact absurd ho (RemoveTree_refs_dead s id j rt hj hid o href)
      · have hne : j ≠ j0 := by
          intro he
          subst he
          rw [hj] at hrt0
          injection hrt0 with he2
          subst he2
          exact hid hid0
        rcases Nat.lt_or_ge j j0 with hlt | hge
        · refine ⟨j, rt, ?_, href⟩
          rw [hreg, List.getElem?_eraseIdx, if_pos hlt]
          exact hj
        · have hgt : j0 < j := Nat.lt_of_le_of_ne hge (Ne.symm hne)
          refine ⟨j - 1, rt, ?_, href⟩
          rw [hreg, List.getElem?_eraseIdx,
            if_neg (by omega : ¬(j - 1 < j0))]
          have hsub : j - 1 + 1 = j := by omega
          rw [hsub]
          exact hj
  · have h' : ∀ rt ∈ s.RunningTrees, rt.Id ≠ id := by
      intro rt hmem hid
      exact h ⟨rt, hmem, hid⟩
    rw [RemoveTree_nomatch s id h']
    exact ⟨hdisj, hbound, hrefd⟩

theorem applyOp_inv (s : ManagerState) (op : ManagerOp) (h : Inv s) :
    Inv (applyOp s op) := by
  cases op with
  | addOp setup => exact AddTree_inv s setup h
  | removeOp id => exact RemoveTree_inv s id h

theorem applyOps_inv (ops : List ManagerOp) :
    ∀ s, Inv s → Inv (applyOps s ops) := by
  induction ops with
  | nil => intro s h; exact h
  | cons op rest ih => intro s h; exact ih _ (applyOp_inv s op h)

theorem addAll_inv (setups : List FParallelBehaviorSetup) :
    ∀ s, Inv s → Inv (addAll s setups) := by
  induction setups with
  | nil => intro s h; exact h
  | cons setup rest ih => intro s h; exact ih _ (AddTree_inv s setup h)

/-- With every live object referenced by some record, `RemoveAllTrees`
leaves nothing alive. -/
theorem RemoveAllTrees_alive_nil (s : ManagerState)
    (h : AliveRefd s.RunningTrees s.alive) :
    (RemoveAllTrees s).alive = [] := by
  rw [List.eq_nil_iff_forall_not_mem]
  intro o ho
  have hos : o ∈ s.alive := RemoveAllTrees_alive_subset s o ho
  obtain ⟨j, rt, hj, href⟩ := h o hos
  exact RemoveAllTrees_refs_dead s j rt hj o href ho

/-! ### The default-tree bootstrap -/

theorem runDefaultTreesLoop_eq_foldl (D : List FParallelBehaviorSetup) :
    ∀ (rem i : Nat) (s : ManagerState),
      s.ParallelBehaviorDefaults = D → rem + i = D.length →
      runDefaultTreesLoop rem i s =
        List.foldl (fun st setup => (AddTree st setup).2) s (D.drop i) := by
  intro rem
  induction rem with
  | zero =>
    intro i s hD hlen
    have hi : i = D.length := by omega
    subst hi
    rw [List.drop_length]
    rfl
  | succ n ih =>
    intro i s hD hlen
    have hi : i < D.length := by omega
    have hgi : s.ParallelBehaviorDefaults[i]? = some D[i] := by
      rw [hD]
      exact List.getElem?_eq_getElem hi
    have hdrop : D.drop i = D[i] :: D.drop (i + 1) :=
      List.drop_eq_getElem_cons hi
    simp only [runDefaultTreesLoop, hgi]
    rw [hdrop]
    simp only [List.foldl_cons]
    exact ih (i + 1) (AddTree s D[i]).2 (by rw [AddTree_defaults, hD])
      (by omega)

/-- `RunDefaultTrees` processes the whole configured defaults list, in
declaration order, feeding each `AddTree` result state into the next call
and ignoring each call's boolean result (a failing `AddTree` does not
abort the remaining iterations). -/
theorem RunDefaultTrees_eq_foldl (s : ManagerState) :
    RunDefaultTrees s =
      List.foldl (fun st setup => (AddTree st setup).2) s
        s.ParallelBehaviorDefaults := by
  have h := runDefaultTreesLoop_eq_foldl s.ParallelBehaviorDefaults
    s.ParallelBehaviorDefaults.length 0 s rfl (by omega)
  rw [RunDefaultTrees, h, List.drop_zero]

/-! ### Counting helpers for duplicate-id registries -/

theorem countP_eraseIdx {α : Type} (p : α → Bool) :
    ∀ (l : List α) (i : Nat) (a : α), l[i]? = some a → p a = true →
      (l.eraseIdx i).countP p + 1 = l.countP p := by
  intro l
  induction l with
  | nil => intro i a hi; simp at hi
  | cons b l ih =>
    intro i a hi hp
    cases i with
    | zero =>
      have he : b = a := by simpa using hi
      subst he
      simp only [List.eraseIdx_cons_zero]
      rw [List.countP_cons]
      simp [hp]
    | succ i' =>
      have hi' : l[i']? = some a := by simpa using hi
      simp only [List.eraseIdx_cons_succ]
      rw [List.countP_cons, List.countP_cons]
      have := ih i' a hi' hp
      omega

theorem two_le_countP {α : Type} (p : α → Bool) :
    ∀ (l : List α) (j1 j2 : Nat) (a1 a2 : α), l[j1]? = some a1 →
      l[j2]? = some a2 → j1 < j2 → p a1 = true → p a2 = true →
      2 ≤ l.countP p := by
  intro l
  induction l with
  | nil => intro j1 j2 a1 a2 h1; simp at h1
  | cons a l ih =>
    intro j1 j2 a1 a2 h1 h2 hlt hp1 hp2
    cases j1 with
    | zero =>
      have he : a = a1 := by simpa using h1
      subst he
      cases j2 with
      | zero => omega
      | succ j2' =>
        have h2' : l[j2']? = some a2 := by simpa using h2
        have hone : 0 < l.countP p :=
          List.countP_pos_iff.mpr
            ⟨a2, List.mem_iff_getElem?.mpr ⟨j2', h2'⟩, hp2⟩
        rw [List.countP_cons]
        simp only [hp1, if_true]
        omega
    | succ j1' =>
      cases j2 with
      | zero => omega
      | succ j2' =>
        have := ih j1' j2' a1 a2 (by simpa using h1) (by simpa using h2)
          (by omega) hp1 hp2
        rw [List.countP_cons]
        omega

/-- A one-record registry trivially has pairwise-disjoint references. -/
theorem refsDisjoint_single (rt0 : FParallelBehaviorRuntime) :
    RefsDisjoint [rt0] := by
  unfold RefsDisjoint
  intro j j' rt rt' hj hj' x _ _
  have hj1 : j < 1 := by
    simpa using lt_length_of_getElem _ _ _ hj
  have hj2 : j' < 1 := by
    simpa using lt_length_of_getElem _ _ _ hj'
  omega

/-! ### Concrete fixtures used by the counterexample / failing-input
theorems. -/

/-- Fixture: a registry holding one record with id 1 and a live executor
10 (and an empty defaults list). -/
def singleState : ManagerState :=
  ⟨[], [⟨1, some 10, none⟩], [10], [], [], [], 11, []⟩

/-- Fixture: a registry holding one record with id 7 and a live executor
3, for the external-destruction scenario. -/
def staleState : ManagerState :=
  ⟨[], [⟨7, some 3, none⟩], [3], [], [], [], 4, []⟩

/-- Fixture: a setup with id 1 whose tree asset resolves and declares no
blackboard schema. -/
def setupNoBB : FParallelBehaviorSetup := ⟨1, some ⟨none⟩⟩

/-- Fixture: a setup with id 2 whose tree asset has a blackboard schema on
which `InitializeBlackboard` fails. -/
def setupInitFails : FParallelBehaviorSetup := ⟨2, some ⟨some ⟨false, false⟩⟩⟩

/-- Fixture: a registry holding two records that share id 1, with live
executors 10 and 11 (and an empty defaults list). -/
def dupIdState : ManagerState :=
  ⟨[], [⟨1, some 10, none⟩, ⟨1, some 11, none⟩], [10, 11], [], [], [], 12, []⟩

/-- C1 (code bug): with an empty configured defaults list, `AddTree` of a
valid setup returns true and leaves a live executor in the registry, yet
the immediately following `GetTree(setup.id)` returns absent — because the
source's lookup loop (ParallelBehaviorManagerComponent.cpp line 168) is
bounded by `ParallelBehaviorDefaults.Num()` instead of
`RunningTrees.Num()`, so no registry record is ever examined.  This
contradicts the claimed add-then-get round trip and the function's own
header documentation ("Searches through all managed parallel behavior tree
instances"). -/
theorem C1_getTree_misses_added_tree :
    (AddTree (initState []) setupNoBB).1 = true ∧
    (AddTree (initState []) setupNoBB).2.RunningTrees = [⟨1, some 0, none⟩] ∧
    0 ∈ (AddTree (initState []) setupNoBB).2.alive ∧
    GetTree (AddTree (initState []) setupNoBB).2 1 = Except.ok none := by
  refine ⟨rfl, rfl, ?_, rfl⟩
  decide

/-- C3 (code bug): `GetTree` performs the out-of-bounds registry access
`RunningTrees[i]` as soon as the configured defaults list is longer than
the registry (here: one default, empty registry), which trips the engine's
`check` and aborts the process — refuting the claim that no operation
aborts for any input and registry state. -/
theorem C3_getTree_aborts_out_of_bounds :
    GetTree (initState [setupNoBB]) 5 = Except.error () := rfl

/-- C2 (counterexample): with two records sharing id 1, `RemoveTree 1`
returns true but removes only one record from the registry — the record
`⟨1, some 11, none⟩` is still present afterwards, refuting "removes that
record from the registry" for every matching record (only `foundIndex`,
overwritten down to the earliest match, is passed to `RemoveAt`). -/
theorem C2_cx_matching_record_left_in_registry :
    (RemoveTree dupIdState 1).1 = true ∧
    (RemoveTree dupIdState 1).2.RunningTrees = [⟨1, some 11, none⟩] :=
  ⟨rfl, rfl⟩

/-- C9 (counterexample): with two records sharing id 1, `RemoveTree 1`
returns true and an immediately following second `RemoveTree 1` returns
true again (the leftover duplicate record still matches), refuting the
claim that the second call returns false. -/
theorem C9_cx_second_remove_returns_true :
    (RemoveTree dupIdState 1).1 = true ∧
    (RemoveTree (RemoveTree dupIdState 1).2 1).1 = true :=
  ⟨rfl, rfl⟩

/-- C4 (counterexample): when the blackboard schema is present but its
initialization fails, `AddTree` returns true and appends the record with
the blackboard handle PRESENT (the freshly constructed, uninitialized,
still-live blackboard component `0`), and emits no diagnostic (the log
carries only the success entry) — refuting "the instance is ... created
with the blackboard handle left absent" and "a diagnostic is emitted" for
the initialization-failure case. -/
theorem C4_cx_blackboard_handle_present_on_init_failure :
    (AddTree (initState []) setupInitFails).1 = true ∧
    (AddTree (initState []) setupInitFails).2.RunningTrees =
      [⟨2, some 1, some 0⟩] ∧
    0 ∈ (AddTree (initState []) setupInitFails).2.alive ∧
    (AddTree (initState []) setupInitFails).2.log =
      [LogEvent.logTreeStarted] := by
  refine ⟨rfl, rfl, ?_, rfl⟩
  decide

/-- C2 (amended): for every id and every registry state whose records
reference pairwise-disjoint component objects (true of all states the
manager's own operations produce), `RemoveTree id` (a) returns true
exactly when at least one record matches the id; (b) with an unknown id
it returns false with no side effects at all; (c) when a match exists it
removes from the registry exactly the record at the earliest-inserted
matching index — not every matching record; (d) for EVERY matching record
it destroys that record's referenced components and gracefully stops its
live executor; and (e) it skips stale handles: an object that is not live
is never stopped. -/
theorem C2_removeTree_amended (s : ManagerState) (id : Nat)
    (hdisj : RefsDisjoint s.RunningTrees) :
    ((RemoveTree s id).1 = s.RunningTrees.any (fun rt => rt.Id == id)) ∧
    ((∀ rt ∈ s.RunningTrees, rt.Id ≠ id) → RemoveTree s id = (false, s)) ∧
    ((∃ rt ∈ s.RunningTrees, rt.Id = id) →
      ∃ j, matchAtB id s.RunningTrees j = true ∧
        (∀ j' < j, matchAtB id s.RunningTrees j' = false) ∧
        (RemoveTree s id).2.RunningTrees = s.RunningTrees.eraseIdx j) ∧
    (∀ (j : Nat) (rt : FParallelBehaviorRuntime),
      s.RunningTrees[j]? = some rt → rt.Id = id →
      (∀ x ∈ rtRefs rt, x ∉ (RemoveTree s id).2.alive) ∧
      (∀ t, rt.TreeComponent = some t → t ∈ s.alive →
        t ∈ (RemoveTree s id).2.stopped)) ∧
    (∀ x, x ∉ s.alive →
      (x ∈ (RemoveTree s id).2.stopped ↔ x ∈ s.stopped)) := by
  refine ⟨RemoveTree_fst s id, RemoveTree_nomatch s id, ?_, ?_, ?_⟩
  · intro h
    obtain ⟨j, h1, h2, h3, _⟩ := RemoveTree_registry_match s id h
    exact ⟨j, h1, h2, h3⟩
  · intro j rt hj hid
    refine ⟨RemoveTree_refs_dead s id j rt hj hid, ?_⟩
    intro t htc hta
    refine RemoveTree_stop s id j rt t hj hid htc hta ?_
    intro j' rt'' hne hj' hid' htr
    exact hne (hdisj j' j rt'' rt hj' hj t htr (by simp [rtRefs, htc]))
  · intro x hx
    exact RemoveTree_stale_skip s id x hx

/-- C2 witness: the amended theorem applied to a concrete one-record
registry: the call returns true, the executor dies and is stopped. -/
theorem C2_removeTree_amended_witness :
    (RemoveTree singleState 1).1 = true ∧
    10 ∉ (RemoveTree singleState 1).2.alive ∧
    10 ∈ (RemoveTree singleState 1).2.stopped := by
  have h := C2_removeTree_amended singleState 1 (refsDisjoint_single _)
  refine ⟨?_, ?_, ?_⟩
  · rw [h.1]
    decide
  · exact (h.2.2.2.1 0 ⟨1, some 10, none⟩ rfl rfl).1 10 (by decide)
  · exact (h.2.2.2.1 0 ⟨1, some 10, none⟩ rfl rfl).2 10 rfl (by decide)

/-- C9 (amended): the second `RemoveTree id` returns false provided at
most one record matched the id before the first call (in particular,
whenever ids are unique); with duplicate ids the leftover matching records
make the second call return true instead. -/
theorem C9_remove_second_false_amended (s : ManagerState) (id : Nat)
    (h : s.RunningTrees.countP (fun rt => rt.Id == id) ≤ 1) :
    (RemoveTree (RemoveTree s id).2 id).1 = false := by
  by_cases hm : ∃ rt ∈ s.RunningTrees, rt.Id = id
  · obtain ⟨j, hj, hmin, hreg, _⟩ := RemoveTree_registry_match s id hm
    obtain ⟨rtj, hjr, hidj⟩ := (matchAtB_true_iff id _ j).mp hj
    have hjl : j < s.RunningTrees.length := lt_length_of_getElem _ _ _ hjr
    have hc := countP_eraseIdx (fun rt => rt.Id == id) s.RunningTrees j
      rtj hjr (by simp [hidj])
    have hzero : (s.RunningTrees.eraseIdx j).countP
        (fun rt => rt.Id == id) = 0 := by omega
    rw [RemoveTree_fst, hreg]
    apply Bool.eq_false_iff.mpr
    intro hany
    obtain ⟨rt, hmem, hp⟩ := List.any_eq_true.mp hany
    exact absurd hp (List.countP_eq_zero.mp hzero rt hmem)
  · have h' : ∀ rt ∈ s.RunningTrees, rt.Id ≠ id :=
      fun rt hmem hid => hm ⟨rt, hmem, hid⟩
    rw [RemoveTree_nomatch s id h', RemoveTree_fst]
    apply Bool.eq_false_iff.mpr
    intro hany
    obtain ⟨rt, hmem, hp⟩ := List.any_eq_true.mp hany
    exact h' rt hmem (beq_iff_eq.mp hp)

/-- C9 witness: on a one-record registry the second removal of the same
id returns false. -/
theorem C9_remove_second_false_amended_witness :
    (RemoveTree (RemoveTree singleState 1).2 1).1 = false :=
  C9_remove_second_false_amended singleState 1 (by decide)

/-- C10: when two (or more) registry records share an id, `RemoveTree`
returns true, removes exactly one record from the registry array — the
earliest-inserted matching one (the registry shrinks by exactly one, and
exactly one fewer record matches, so at least one matching record
remains, now holding stale handles) — while the referenced components of
EVERY matching record are destroyed. -/
theorem C10_duplicate_remove_one (s : ManagerState) (id : Nat)
    (j1 j2 : Nat) (rt1 rt2 : FParallelBehaviorRuntime)
    (hj1 : s.RunningTrees[j1]? = some rt1)
    (hj2 : s.RunningTrees[j2]? = some rt2)
    (hne : j1 ≠ j2) (hid1 : rt1.Id = id) (hid2 : rt2.Id = id) :
    (RemoveTree s id).1 = true ∧
    (∃ j, matchAtB id s.RunningTrees j = true ∧
      (∀ j' < j, matchAtB id s.RunningTrees j' = false) ∧
      (RemoveTree s id).2.RunningTrees = s.RunningTrees.eraseIdx j) ∧
    (RemoveTree s id).2.RunningTrees.length + 1 =
      s.RunningTrees.length ∧
    (RemoveTree s id).2.RunningTrees.countP (fun rt => rt.Id == id) + 1 =
      s.RunningTrees.countP (fun rt => rt.Id == id) ∧
    1 ≤ (RemoveTree s id).2.RunningTrees.countP
      (fun rt => rt.Id == id) ∧
    (∀ (j : Nat) (rt : FParallelBehaviorRuntime),
      s.RunningTrees[j]? = some rt → rt.Id = id →
      ∀ x ∈ rtRefs rt, x ∉ (RemoveTree s id).2.alive) := by
  have hm : ∃ rt ∈ s.RunningTrees, rt.Id = id :=
    ⟨rt1, List.mem_iff_getElem?.mpr ⟨j1, hj1⟩, hid1⟩
  obtain ⟨j, hj, hmin, hreg, _⟩ := RemoveTree_registry_match s id hm
  obtain ⟨rtj, hjr, hidj⟩ := (matchAtB_true_iff id _ j).mp hj
  have hjl : j < s.RunningTrees.length := lt_length_of_getElem _ _ _ hjr
  have hcount := countP_eraseIdx (fun rt => rt.Id == id) s.RunningTrees j
    rtj hjr (by simp [hidj])
  have htwo : 2 ≤ s.RunningTrees.countP (fun rt => rt.Id == id) := by
    rcases Nat.lt_or_ge j1 j2 with hlt | hge
    · exact two_le_countP _ s.RunningTrees j1 j2 rt1 rt2 hj1 hj2 hlt
        (by simp [hid1]) (by simp [hid2])
    · have hgt : j2 < j1 := Nat.lt_of_le_of_ne hge (Ne.symm hne)
      exact two_le_countP _ s.RunningTrees j2 j1 rt2 rt1 hj2 hj1 hgt
        (by simp [hid2]) (by simp [hid1])
  refine ⟨?_, ⟨j, hj, hmin, hreg⟩, ?_, ?_, ?_, ?_⟩
  · rw [RemoveTree_fst]
    exact List.any_eq_true.mpr
      ⟨rt1, List.mem_iff_getElem?.mpr ⟨j1, hj1⟩, by simp [hid1]⟩
  · rw [hreg, List.length_eraseIdx_of_lt hjl]
    omega
  · rw [hreg]
    exact hcount
  · rw [hreg]
    omega
  · intro j' rt hj' hid'
    exact RemoveTree_refs_dead s id j' rt hj' hid'

/-- C10 witness: the duplicate-id fixture — the registry shrinks from two
records to one, and both executors are destroyed. -/
theorem C10_duplicate_remove_one_witness :
    (RemoveTree dupIdState 1).1 = true ∧
    (RemoveTree dupIdState 1).2.RunningTrees.length + 1 =
      dupIdState.RunningTrees.length ∧
    10 ∉ (RemoveTree dupIdState 1).2.alive ∧
    11 ∉ (RemoveTree dupIdState 1).2.alive := by
  have h := C10_duplicate_remove_one dupIdState 1 0 1
    ⟨1, some 10, none⟩ ⟨1, some 11, none⟩ rfl rfl (by decide) rfl rfl
  refine ⟨h.1, h.2.2.1, ?_, ?_⟩
  · exact h.2.2.2.2.2 0 ⟨1, some 10, none⟩ rfl rfl 10 (by decide)
  · exact h.2.2.2.2.2 1 ⟨1, some 11, none⟩ rfl rfl 11 (by decide)

/-- C4 (amended): `AddTree` with a null tree definition warns, returns
false and mutates nothing but the log (registry, live set and counter are
exactly those of the input state).  With a tree definition whose
blackboard schema is ABSENT, it emits the diagnostic and appends the
record with the blackboard handle left absent, returning true.  But when
the schema is present and its initialization FAILS, the record is
appended with the (uninitialized, live) blackboard handle PRESENT and no
diagnostic is emitted — only the initialization-dependent "self"-key
write is skipped. -/
theorem C4_addTree_amended (s : ManagerState)
    (setup : FParallelBehaviorSetup) :
    (setup.BTAsset = none →
      AddTree s setup =
        (false, { s with log := LogEvent.warnNullTree :: s.log })) ∧
    (∀ bt, setup.BTAsset = some bt → bt.BlackboardAsset = none →
      AddTree s setup = (true, { s with
        RunningTrees :=
          s.RunningTrees ++ [⟨setup.Id, some s.nextObj, none⟩],
        alive := s.nextObj :: s.alive,
        nextObj := s.nextObj + 1,
        log := LogEvent.logTreeStarted ::
          LogEvent.warnNullBlackboardAsset :: s.log })) ∧
    (∀ bt bb, setup.BTAsset = some bt → bt.BlackboardAsset = some bb →
      (AddTree s setup).1 = true ∧
      (AddTree s setup).2.RunningTrees = s.RunningTrees ++
        [⟨setup.Id, some (s.nextObj + 1), some s.nextObj⟩] ∧
      s.nextObj ∈ (AddTree s setup).2.alive ∧
      (AddTree s setup).2.log = LogEvent.logTreeStarted :: s.log ∧
      (bb.initSucceeds = false →
        (AddTree s setup).2.selfKeySet = s.selfKeySet)) := by
  refine ⟨AddTree_null s setup,
    fun bt h hbb => AddTree_noBB s setup bt h hbb, ?_⟩
  intro bt bb h hbb
  rw [AddTree_withBB s setup bt bb h hbb]
  refine ⟨rfl, rfl, by simp, rfl, ?_⟩
  intro hfail
  simp [hfail]

/-- C4 witness: the amended theorem applied to the failing-initialization
fixture. -/
theorem C4_addTree_amended_witness :
    (AddTree (initState []) setupInitFails).1 = true ∧
    (AddTree (initState []) setupInitFails).2.RunningTrees =
      [⟨2, some 1, some 0⟩] ∧
    0 ∈ (AddTree (initState []) setupInitFails).2.alive := by
  have h := (C4_addTree_amended (initState []) setupInitFails).2.2
    ⟨some ⟨false, false⟩⟩ ⟨false, false⟩ rfl rfl
  exact ⟨h.1, h.2.1, h.2.2.1⟩

/-- A destroyed object is no longer in the live set. -/
theorem externalDestroy_not_alive (s : ManagerState) (o : Nat) :
    o ∉ (externalDestroy s o).alive := by
  simp [externalDestroy]

/-- C5: after an executor (or blackboard) object `o` is destroyed
externally (without going through `RemoveTree`), every registry operation
on an id that is present in the registry behaves safely: `GetTree` does
not abort and returns either absent or a LIVE handle (never the destroyed
object); `StopTree` and `RestartTree` do not abort and leave the registry
and live set unchanged; `RemoveTree` still removes exactly the
earliest-inserted matching record and never invokes a stop on the dead
object (the stale handle reads as invalid and is skipped); and
`RemoveAllTrees` clears the registry, also skipping the stale handle. -/
theorem C5_stale_handle_safety (s : ManagerState) (o : Nat) (id : Nat)
    (hid : ∃ rt ∈ s.RunningTrees, rt.Id = id) :
    (∃ r, GetTree (externalDestroy s o) id = Except.ok r ∧
      ∀ t, r = some t → t ∈ (externalDestroy s o).alive ∧ t ≠ o) ∧
    (∃ s2, StopTree (externalDestroy s o) id = Except.ok s2 ∧
      s2.RunningTrees = s.RunningTrees ∧
      s2.alive = (externalDestroy s o).alive) ∧
    (∃ s2, RestartTree (externalDestroy s o) id = Except.ok s2 ∧
      s2.RunningTrees = s.RunningTrees ∧
      s2.alive = (externalDestroy s o).alive) ∧
    (∃ j, matchAtB id s.RunningTrees j = true ∧
      (∀ j' < j, matchAtB id s.RunningTrees j' = false) ∧
      (RemoveTree (externalDestroy s o) id).2.RunningTrees =
        s.RunningTrees.eraseIdx j) ∧
    (o ∈ (RemoveTree (externalDestroy s o) id).2.stopped ↔
      o ∈ (externalDestroy s o).stopped) ∧
    ((RemoveAllTrees (externalDestroy s o)).RunningTrees = [] ∧
      (o ∈ (RemoveAllTrees (externalDestroy s o)).stopped ↔
        o ∈ (externalDestroy s o).stopped)) := by
  have hmatch : ∃ j rt, 0 ≤ j ∧
      (externalDestroy s o).RunningTrees[j]? = some rt ∧ rt.Id = id := by
    obtain ⟨rt, hmem, hidr⟩ := hid
    obtain ⟨j, hj⟩ := List.mem_iff_getElem?.mp hmem
    exact ⟨j, rt, Nat.zero_le j, hj, hidr⟩
  obtain ⟨r, hr⟩ := getTreeLoop_ok_of_match (externalDestroy s o).alive
    (externalDestroy s o).RunningTrees id
    (externalDestroy s o).ParallelBehaviorDefaults.length 0 hmatch
  have hlive : ∀ t, r = some t →
      t ∈ (externalDestroy s o).alive ∧ t ≠ o := by
    intro t ht
    subst ht
    have htl := getTreeLoop_live (externalDestroy s o).alive
      (externalDestroy s o).RunningTrees id
      (externalDestroy s o).ParallelBehaviorDefaults.length 0 t hr
    exact ⟨htl, fun he => externalDestroy_not_alive s o (he ▸ htl)⟩
  refine ⟨⟨r, hr, hlive⟩, ?_, ?_, ?_, ?_, ?_⟩
  · cases r with
    | none =>
      refine ⟨externalDestroy s o, ?_, rfl, rfl⟩
      simp only [StopTree, GetTree, hr]
    | some t =>
      refine ⟨{ externalDestroy s o with
        stopped := t :: (externalDestroy s o).stopped }, ?_, rfl, rfl⟩
      simp only [StopTree, GetTree, hr]
  · cases r with
    | none =>
      refine ⟨externalDestroy s o, ?_, rfl, rfl⟩
      simp only [RestartTree, GetTree, hr]
    | some t =>
      refine ⟨{ externalDestroy s o with
        restarted := t :: (externalDestroy s o).restarted }, ?_, rfl, rfl⟩
      simp only [RestartTree, GetTree, hr]
  · obtain ⟨j, h1, h2, h3, _⟩ :=
      RemoveTree_registry_match (externalDestroy s o) id hid
    exact ⟨j, h1, h2, h3⟩
  · exact RemoveTree_stale_skip (externalDestroy s o) id o
      (externalDestroy_not_alive s o)
  · exact ⟨rfl, RemoveAllTrees_stale_skip (externalDestroy s o) o
      (externalDestroy_not_alive s o)⟩

/-- C5 witness: the one-record fixture with its executor destroyed
externally. -/
theorem C5_stale_handle_safety_witness :
    (∃ r, GetTree (externalDestroy staleState 3) 7 = Except.ok r ∧
      ∀ t, r = some t → t ∈ (externalDestroy staleState 3).alive ∧
        t ≠ 3) ∧
    (RemoveAllTrees (externalDestroy staleState 3)).RunningTrees = [] := by
  have h := C5_stale_handle_safety staleState 3 7 (by decide)
  exact ⟨h.1, h.2.2.2.2.2.1⟩

/-- C6: for any prior sequence of Add/Remove calls, `RemoveAllTrees`
leaves the registry empty and nothing alive (every previously live
executor and blackboard has been destroyed); every record's live executor
received a graceful stop; calling it again is a no-op, and it is a no-op
on any empty registry. -/
theorem C6_removeAll_clears (defaults : List FParallelBehaviorSetup)
    (ops : List ManagerOp) :
    (RemoveAllTrees (applyOps (initState defaults) ops)).RunningTrees
      = [] ∧
    (RemoveAllTrees (applyOps (initState defaults) ops)).alive = [] ∧
    (∀ (j : Nat) (rt : FParallelBehaviorRuntime) (t : Nat),
      (applyOps (initState defaults) ops).RunningTrees[j]? = some rt →
      rt.TreeComponent = some t →
      t ∈ (applyOps (initState defaults) ops).alive →
      t ∈ (RemoveAllTrees (applyOps (initState defaults) ops)).stopped) ∧
    RemoveAllTrees (RemoveAllTrees (applyOps (initState defaults) ops)) =
      RemoveAllTrees (applyOps (initState defaults) ops) ∧
    (∀ s2 : ManagerState, s2.RunningTrees = [] →
      RemoveAllTrees s2 = s2) := by
  obtain ⟨hdisj, hbound, hrefd⟩ :=
    applyOps_inv ops (initState defaults) (initState_inv defaults)
  refine ⟨rfl, RemoveAllTrees_alive_nil _ hrefd, ?_,
    RemoveAllTrees_idem _, RemoveAllTrees_empty_noop⟩
  intro j rt t hj htc hta
  refine RemoveAllTrees_stop _ j rt t hj htc hta ?_
  intro j' rt'' hne hj' htr
  exact hne (hdisj j' j rt'' rt hj' hj t htr (by simp [rtRefs, htc]))

/-- C6 witness: one added tree, then `RemoveAllTrees`: empty registry,
nothing alive, the executor (object 0) stopped. -/
theorem C6_removeAll_clears_witness :
    (RemoveAllTrees (applyOps (initState [])
      [ManagerOp.addOp setupNoBB])).RunningTrees = [] ∧
    (RemoveAllTrees (applyOps (initState [])
      [ManagerOp.addOp setupNoBB])).alive = [] ∧
    0 ∈ (RemoveAllTrees (applyOps (initState [])
      [ManagerOp.addOp setupNoBB])).stopped := by
  have h := C6_removeAll_clears [] [ManagerOp.addOp setupNoBB]
  exact ⟨h.1, h.2.1, h.2.2.1 0 ⟨1, some 0, none⟩ 0 rfl rfl (by decide)⟩

/-- C7: `EndPlay` is exactly an unconditional `RemoveAllTrees` (no
authority predicate is consulted and the end-play reason is ignored), so
after any sequence of `AddTree` calls, deactivating leaves the registry
empty and no executor or blackboard created by the sequence alive. -/
theorem C7_deactivation_guarantee (defaults : List FParallelBehaviorSetup)
    (setups : List FParallelBehaviorSetup) (reason : Nat) :
    EndPlay (addAll (initState defaults) setups) reason =
      RemoveAllTrees (addAll (initState defaults) setups) ∧
    (EndPlay (addAll (initState defaults) setups) reason).RunningTrees
      = [] ∧
    (EndPlay (addAll (initState defaults) setups) reason).alive = [] := by
  have hinv := addAll_inv setups (initState defaults)
    (initState_inv defaults)
  exact ⟨rfl, rfl, RemoveAllTrees_alive_nil _ hinv.2.2⟩

/-- C8: on activation the default-tree bootstrap happens exactly when the
authority predicate holds: with authority false, `BeginPlay` changes
nothing (in particular the registry of a fresh manager stays empty); with
authority true it folds `AddTree` over the configured defaults list in
declaration order, each call's result state feeding the next and the
boolean results ignored, so a failing `AddTree` does not abort the
remaining iterations. -/
theorem C8_authority_gating (s : ManagerState)
    (defaults : List FParallelBehaviorSetup) :
    BeginPlay s false = s ∧
    (BeginPlay (initState defaults) false).RunningTrees = [] ∧
    BeginPlay s true =
      List.foldl (fun st setup => (AddTree st setup).2) s
        s.ParallelBehaviorDefaults := by
  refine ⟨rfl, rfl, ?_⟩
  show RunDefaultTrees s = _
  exact RunDefaultTrees_eq_foldl s

end ParallelBehavior
